import Mathlib

/-!
Verification of the `Phrases` collocation model (gensim/models/phrases.py).

The count table (a Python `defaultdict(int)` keyed by token strings) is
embedded as an association list with unique keys; tokens are `String`s and
the compound key joins two tokens with an underscore, exactly as the source
does with `"%s_%s" % bigram`.  Floating-point scores are embedded as exact
rationals.  The transform `Phrases.__getitem__` is embedded as a structural
recursion over the sentence that carries the `last_bigram` flag, together
with a position-annotated variant used to reason about which source tokens
each emitted element consumes.
-/

namespace Gensim

/-- The count table: Python `dict` from utf8 token to count, as an
association list with (by construction) unique keys. -/
abbrev Vocab := List (String × Nat)

/-- Dictionary lookup: `vocab[k]` when present. -/
def vlookup : Vocab → String → Option Nat
  | [], _ => none
  | (k', c) :: rest, k => if k' = k then some c else vlookup rest k

/-- `defaultdict(int)` read: the count of `k`, 0 when absent. -/
def vcount (v : Vocab) (k : String) : Nat := (vlookup v k).getD 0

/-- Python `k in vocab`. -/
def vmem (v : Vocab) (k : String) : Bool := (vlookup v k).isSome

/-- `vocab[k] += n`: add `n` to the entry for `k`, creating it if absent. -/
def vincr : Vocab → String → Nat → Vocab
  | [], k, n => [(k, n)]
  | (k', c) :: rest, k, n =>
    if k' = k then (k', c + n) :: rest else (k', c) :: vincr rest k n

/-- The compound key `"%s_%s" % (a, b)`. -/
def compound (a b : String) : String := a ++ "_" ++ b

/-- `prune_vocab(vocab, min_reduce)`: remove all entries with count
`<= min_reduce` (functional rendering of the in-place deletion loop). -/
def prune_vocab : Vocab → Nat → Vocab
  | [], _ => []
  | (k, c) :: rest, min_reduce =>
    if c ≤ min_reduce then prune_vocab rest min_reduce
    else (k, c) :: prune_vocab rest min_reduce

/-- The inner loop of `learn_vocab`: for each adjacent pair `(a, b)` of the
sentence, `vocab[a] += 1` and `vocab[a_b] += 1`. -/
def addPairs : Vocab → List String → Vocab
  | v, a :: b :: rest => addPairs (vincr (vincr v a 1) (compound a b) 1) (b :: rest)
  | v, _ => v

/-- One sentence of `learn_vocab`: the pair loop, then `vocab[sentence[-1]] += 1`
for a non-empty sentence (the last word is skipped by the pair loop). -/
def learnSentence (v : Vocab) (s : List String) : Vocab :=
  let v' := addPairs v s
  match s.getLast? with
  | some w => vincr v' w 1
  | none => v'

/-- The per-sentence body of `learn_vocab`, including the bounded-memory
check: if the table outgrows `max_vocab_size`, prune at the local
`min_reduce` and then increment it. State is `(vocab, min_reduce)`. -/
def learnStep (max_vocab_size : Int) (st : Vocab × Nat) (s : List String) :
    Vocab × Nat :=
  let v := learnSentence st.1 s
  if max_vocab_size < (v.length : Int) then
    (prune_vocab v st.2, st.2 + 1)
  else
    (v, st.2)

/-- `Phrases.learn_vocab(sentences, max_vocab_size)`: fold the per-sentence
step over the corpus starting from an empty table and `min_reduce = 1`,
returning `(min_reduce, vocab)` as the source does. -/
def learn_vocab (sentences : List (List String)) (max_vocab_size : Int) :
    Nat × Vocab :=
  let st := sentences.foldl (learnStep max_vocab_size) ([], 1)
  (st.2, st.1)

/-- The state of a `Phrases` model: configuration plus the cumulative
count table and the discard threshold `min_reduce`. -/
structure Phrases where
  min_count : Int
  threshold : ℚ
  max_vocab_size : Int
  vocab : Vocab
  min_reduce : Nat
deriving Repr, DecidableEq

/-- `Phrases.__init__` (with `sentences=None`): validates `min_count` and
`threshold`, then builds the model with an empty table and `min_reduce = 1`. -/
def Phrases.mk? (min_count : Int) (threshold : ℚ) (max_vocab_size : Int) :
    Except String Phrases :=
  if min_count ≤ 0 then Except.error "min_count should be at least 1"
  else if threshold ≤ 0 then Except.error "threshold should be positive"
  else Except.ok ⟨min_count, threshold, max_vocab_size, [], 1⟩

/-- The merge loop of `add_vocab`: `self.vocab[word] += count` for every
entry of the freshly collected table. -/
def vaddAll (v : Vocab) (lv : Vocab) : Vocab :=
  lv.foldl (fun acc p => vincr acc p.1 p.2) v

/-- `Phrases.add_vocab(sentences)`: collect a local table, raise
`min_reduce` to the local value, fold the counts in key-wise, and if the
cumulative table overflows `max_vocab_size`, prune it at the current
`min_reduce` and increment `min_reduce`. -/
def add_vocab (m : Phrases) (sentences : List (List String)) : Phrases :=
  let r := learn_vocab sentences m.max_vocab_size
  let mr := max m.min_reduce r.1
  let v' := vaddAll m.vocab r.2
  if m.max_vocab_size < (v'.length : Int) then
    { m with vocab := prune_vocab v' mr, min_reduce := mr + 1 }
  else
    { m with vocab := v', min_reduce := mr }

/-- The bigram score computed in `Phrases.__getitem__`:
`(pab - min_count) / pa / pb * len(vocab)`, with float arithmetic embedded
as exact rationals. -/
def score (m : Phrases) (a b : String) : ℚ :=
  ((vcount m.vocab (compound a b) : ℚ) - (m.min_count : ℚ))
    / (vcount m.vocab a : ℚ) / (vcount m.vocab b : ℚ) * (m.vocab.length : ℚ)

/-- Eligibility of a pair in `__getitem__`: both unigrams and the compound
key are present in the cumulative table. -/
def bigramOk (m : Phrases) (a b : String) : Bool :=
  vmem m.vocab a && vmem m.vocab b && vmem m.vocab (compound a b)

/-- The sentence loop of `Phrases.__getitem__`: walk the adjacent pairs
carrying `last_bigram`; a pair merges when it is eligible, the previous
position did not merge, and its score exceeds `threshold`; otherwise the
left token is emitted unless it was consumed by the previous merge.  The
singleton case is the post-loop handling of the final token, which is
emitted only when it is present in the table and not already merged. -/
def phrasesGo (m : Phrases) : List String → Bool → List String
  | a :: b :: rest, last_bigram =>
    if bigramOk m a b && !last_bigram && decide (m.threshold < score m a b) then
      compound a b :: phrasesGo m (b :: rest) true
    else
      (if last_bigram then [] else [a]) ++ phrasesGo m (b :: rest) false
  | [a], last_bigram =>
    if vmem m.vocab a && !last_bigram then [a] else []
  | [], _ => []

/-- `Phrases.__getitem__` on a single sentence. -/
def phrasesGetitem (m : Phrases) (doc : List String) : List String :=
  phrasesGo m doc false

/-- An element emitted by the transform, annotated with the position of the
source token(s) it consumes: `single i w` emits token `w` at position `i`;
`merged i a b` emits the compound of the tokens at positions `i` and `i+1`. -/
inductive POut where
  | single (i : Nat) (w : String)
  | merged (i : Nat) (a b : String)
deriving Repr, DecidableEq

/-- The token an annotated element contributes to the output sentence. -/
def POut.render : POut → String
  | .single _ w => w
  | .merged _ a b => compound a b

/-- The source tokens an annotated element consumes, in order. -/
def POut.expandTok : POut → List String
  | .single _ w => [w]
  | .merged _ a b => [a, b]

/-- First source position consumed. -/
def POut.startIdx : POut → Nat
  | .single i _ => i
  | .merged i _ _ => i

/-- Last source position consumed. -/
def POut.endIdx : POut → Nat
  | .single i _ => i
  | .merged i _ _ => i + 1

/-- Position-annotated rendering of `phrasesGo`: identical control flow,
but each emitted element records which source positions it consumed.
`i` is the position of the head of the remaining sentence. -/
def phrasesGoA (m : Phrases) : Nat → List String → Bool → List POut
  | i, a :: b :: rest, last_bigram =>
    if bigramOk m a b && !last_bigram && decide (m.threshold < score m a b) then
      POut.merged i a b :: phrasesGoA m (i + 1) (b :: rest) true
    else
      (if last_bigram then [] else [POut.single i a])
        ++ phrasesGoA m (i + 1) (b :: rest) false
  | i, [a], last_bigram =>
    if vmem m.vocab a && !last_bigram then [POut.single i a] else []
  | _, [], _ => []

/-- Concatenation of the source tokens consumed by a run of annotated
output elements. -/
def expandAll (l : List POut) : List String :=
  l.foldr (fun x acc => x.expandTok ++ acc) []

/-- Number of increments the pair loop of `learn_vocab` performs for key
`k` while processing a sentence: one per adjacent pair whose left token is
`k`, plus one per adjacent pair whose compound key is `k`. -/
def sentenceOccPairs : List String → String → Nat
  | a :: b :: rest, k =>
    ((if a = k then 1 else 0) + (if compound a b = k then 1 else 0))
      + sentenceOccPairs (b :: rest) k
  | _, _ => 0

/-- Total number of increments `learn_vocab` performs for key `k` on one
sentence: the pair-loop increments plus the final-token increment. -/
def sentenceOcc (s : List String) (k : String) : Nat :=
  sentenceOccPairs s k + (if s.getLast? = some k then 1 else 0)

/-- The exact number of occurrences of key `k` observed over a corpus (the
count `learn_vocab` would record if it never pruned). -/
def exactCount : List (List String) → String → Nat
  | [], _ => 0
  | s :: ss, k => sentenceOcc s k + exactCount ss k

/-- `learnStep` instrumented to watch a key `k`: the extra boolean flag
becomes (and stays) `true` as soon as a pruning pass removes `k`'s entry,
i.e. as soon as `k` is present with count at most the local `min_reduce`
at a pruning checkpoint. -/
def learnStepT (max_vocab_size : Int) (k : String) (st : Vocab × Nat × Bool)
    (s : List String) : Vocab × Nat × Bool :=
  let v := learnSentence st.1 s
  if max_vocab_size < (v.length : Int) then
    (prune_vocab v st.2.1, st.2.1 + 1,
      st.2.2 || (vmem v k && decide (vcount v k ≤ st.2.1)))
  else
    (v, st.2.1, st.2.2)

/-- `learn_vocab` instrumented to watch key `k` for pruning. -/
def learn_vocab_track (sentences : List (List String)) (max_vocab_size : Int)
    (k : String) : Vocab × Nat × Bool :=
  sentences.foldl (learnStepT max_vocab_size k) ([], 1, false)

/-- `spacedFrom n l`: every element of the annotated output `l` consumes
source positions at or after `n`, and each element starts strictly after
the previous one ends (consumed source spans are disjoint and in order). -/
def spacedFrom : Nat → List POut → Prop
  | _, [] => True
  | n, x :: xs => n ≤ x.startIdx ∧ spacedFrom (x.endIdx + 1) xs

/-- The cumulative table of the spec's Example 2: counts a=100, b=100,
a_b=90 and 997 filler unigrams, for a total of 1000 distinct keys. -/
def c1Vocab : Vocab :=
  ("a", 100) :: ("b", 100) :: ("a_b", 90)
    :: (List.range 997).map (fun i => ("w" ++ Nat.repr i, 1))

/-- The model of the spec's Example 2: `min_count = 5`, `threshold = 10`
over the 1000-key table. -/
def c1Model : Phrases := ⟨5, 10, 20000000, c1Vocab, 1⟩

/-- A small model on which the pair ("x", "y") does merge. -/
def c1wModel : Phrases := ⟨1, 1, 100, [("x", 1), ("y", 1), ("x_y", 2)], 1⟩

/-- The model of the spec's Example 4: both "x_y" and "y_z" score above
the threshold. -/
def c5Model : Phrases :=
  ⟨1, 1, 100, [("x", 1), ("y", 1), ("z", 1), ("x_y", 2), ("y_z", 2)], 1⟩

/-- A model whose table holds only the token "a". -/
def c3Model : Phrases := ⟨5, 100, 1000, [("a", 5)], 1⟩

/-- A model whose table holds only the token "v". -/
def c3wModel : Phrases := ⟨5, 100, 1000, [("v", 1)], 1⟩

/-- A model with an empty cumulative table. -/
def c4Model : Phrases := ⟨5, 100, 20000000, [], 1⟩

/-- A model whose table holds only the token "r". -/
def c10Model : Phrases := ⟨5, 100, 1000, [("r", 7)], 1⟩

/-! ### Basic lemmas about the count table -/

/-- The keys of a table. -/
def vkeys (v : Vocab) : List String := v.map Prod.fst

theorem vkeys_cons (p : String × Nat) (rest : Vocab) :
    vkeys (p :: rest) = p.1 :: vkeys rest := rfl

theorem vlookup_vincr (v : Vocab) (w : String) (n : Nat) (k : String) :
    vlookup (vincr v w n) k =
      if w = k then some (vcount v w + n) else vlookup v k := by
  induction v with
  | nil => simp [vincr, vlookup, vcount]
  | cons p rest ih =>
    obtain ⟨k', c⟩ := p
    by_cases h1 : k' = w
    · subst h1
      by_cases h2 : k' = k
      · subst h2
        simp [vincr, vlookup, vcount]
      · simp [vincr, vlookup, h2]
    · by_cases h2 : k' = k
      · subst h2
        have hwk : ¬ w = k' := fun h => h1 h.symm
        simp [vincr, vlookup, h1, hwk]
      · simp [vincr, vlookup, h1, h2, ih, vcount]

theorem vcount_vincr (v : Vocab) (w : String) (n : Nat) (k : String) :
    vcount (vincr v w n) k = vcount v k + (if w = k then n else 0) := by
  by_cases h : w = k
  · subst h
    simp [vcount, vlookup_vincr]
  · simp [vcount, vlookup_vincr, h]

theorem vlookup_eq_none_iff (v : Vocab) (k : String) :
    vlookup v k = none ↔ k ∉ vkeys v := by
  induction v with
  | nil => simp [vlookup, vkeys]
  | cons p rest ih =>
    obtain ⟨k', c⟩ := p
    by_cases h : k' = k
    · subst h
      simp [vlookup, vkeys_cons]
    · have hk : ¬ k = k' := fun hh => h hh.symm
      simp [vlookup, vkeys_cons, h, hk, ih]

theorem vkeys_vincr (v : Vocab) (w : String) (n : Nat) :
    vkeys (vincr v w n) = if w ∈ vkeys v then vkeys v else vkeys v ++ [w] := by
  induction v with
  | nil => simp [vincr, vkeys]
  | cons p rest ih =>
    obtain ⟨k', c⟩ := p
    by_cases h : k' = w
    · subst h
      simp [vincr, vkeys_cons]
    · have hwk : ¬ w = k' := fun hh => h hh.symm
      by_cases h2 : w ∈ vkeys rest
      · simp [vincr, vkeys_cons, h, h2, hwk, ih]
      · simp [vincr, vkeys_cons, h, h2, hwk, ih]

theorem vkeys_vincr_nodup (v : Vocab) (w : String) (n : Nat)
    (h : (vkeys v).Nodup) : (vkeys (vincr v w n)).Nodup := by
  rw [vkeys_vincr]
  by_cases h2 : w ∈ vkeys v
  · simpa [h2] using h
  · simp only [h2, if_false]
    simp [List.nodup_append, h, h2]

/-! ### The pruner (C8) -/

theorem vlookup_prune_some (v : Vocab) (t : Nat) (k : String) (c : Nat)
    (h : vlookup (prune_vocab v t) k = some c) : t < c := by
  induction v with
  | nil => simp [prune_vocab, vlookup] at h
  | cons p rest ih =>
    obtain ⟨k', c'⟩ := p
    by_cases h1 : c' ≤ t
    · exact ih (by simpa [prune_vocab, h1] using h)
    · by_cases h2 : k' = k
      · subst h2
        simp [prune_vocab, h1, vlookup] at h
        omega
      · exact ih (by simpa [prune_vocab, h1, vlookup, h2] using h)

theorem vlookup_prune_none (v : Vocab) (t : Nat) (k : String)
    (h : vlookup v k = none) : vlookup (prune_vocab v t) k = none := by
  induction v with
  | nil => simp [prune_vocab, vlookup]
  | cons p rest ih =>
    obtain ⟨k', c'⟩ := p
    by_cases h2 : k' = k
    · subst h2
      simp [vlookup] at h
    · simp only [vlookup, h2, if_false] at h
      by_cases h1 : c' ≤ t
      · simpa [prune_vocab, h1] using ih h
      · simpa [prune_vocab, h1, vlookup, h2] using ih h

theorem vlookup_prune_gt (v : Vocab) (t : Nat) (k : String)
    (h : t < vcount v k) : vlookup (prune_vocab v t) k = vlookup v k := by
  induction v with
  | nil => simp [prune_vocab]
  | cons p rest ih =>
    obtain ⟨k', c'⟩ := p
    by_cases h2 : k' = k
    · subst h2
      have hc : vcount ((k', c') :: rest) k' = c' := by simp [vcount, vlookup]
      rw [hc] at h
      simp [prune_vocab, vlookup, Nat.not_le.mpr h]
    · have hc : vcount ((k', c') :: rest) k = vcount rest k := by
        simp [vcount, vlookup, h2]
      rw [hc] at h
      by_cases h1 : c' ≤ t
      · simpa [prune_vocab, h1, vlookup, h2] using ih h
      · simpa [prune_vocab, h1, vlookup, h2] using ih h

theorem vlookup_prune_le (v : Vocab) (t : Nat) (k : String)
    (hnd : (vkeys v).Nodup) (h : vcount v k ≤ t) :
    vlookup (prune_vocab v t) k = none := by
  induction v with
  | nil => simp [prune_vocab, vlookup]
  | cons p rest ih =>
    obtain ⟨k', c'⟩ := p
    simp only [vkeys, List.map_cons, List.nodup_cons] at hnd
    by_cases h2 : k' = k
    · subst h2
      have hc : vcount ((k', c') :: rest) k' = c' := by simp [vcount, vlookup]
      rw [hc] at h
      have hrest : vlookup rest k' = none :=
        (vlookup_eq_none_iff rest k').mpr hnd.1
      simp [prune_vocab, h, vlookup_prune_none rest t k' hrest]
    · have hc : vcount ((k', c') :: rest) k = vcount rest k := by
        simp [vcount, vlookup, h2]
      rw [hc] at h
      by_cases h1 : c' ≤ t
      · simpa [prune_vocab, h1] using ih hnd.2 h
      · simpa [prune_vocab, h1, vlookup, h2] using ih hnd.2 h

theorem prune_sublist (v : Vocab) (t : Nat) :
    (prune_vocab v t).Sublist v := by
  induction v with
  | nil => simp [prune_vocab]
  | cons p rest ih =>
    obtain ⟨k', c'⟩ := p
    by_cases h1 : c' ≤ t
    · simpa [prune_vocab, h1] using List.Sublist.cons (k', c') ih
    · simpa [prune_vocab, h1] using List.Sublist.cons₂ (k', c') ih

theorem vkeys_prune_nodup (v : Vocab) (t : Nat)
    (h : (vkeys v).Nodup) : (vkeys (prune_vocab v t)).Nodup :=
  h.sublist ((prune_sublist v t).map Prod.fst)

/-- C8: `prune_vocab(table, T)` removes exactly the entries with count ≤ T:
no surviving entry has count ≤ T, every entry with count > T survives with
its count unchanged, and every key whose count is ≤ T (including absent
keys) is absent afterwards.  The function is total: it never fails. -/
theorem prune_vocab_spec (v : Vocab) (t : Nat) (hnd : (vkeys v).Nodup) :
    (∀ k c, vlookup (prune_vocab v t) k = some c → t < c) ∧
    (∀ k, t < vcount v k → vlookup (prune_vocab v t) k = vlookup v k) ∧
    (∀ k, vcount v k ≤ t → vlookup (prune_vocab v t) k = none) :=
  ⟨fun k c h => vlookup_prune_some v t k c h,
   fun k h => vlookup_prune_gt v t k h,
   fun k h => vlookup_prune_le v t k hnd h⟩

/-- C8 witness: a concrete pruning pass at threshold 3 keeps the entry of
count 5 unchanged. -/
theorem prune_vocab_spec_witness :
    (vkeys [("p", 5), ("q", 2)]).Nodup ∧
    3 < vcount [("p", 5), ("q", 2)] "p" ∧
    vlookup (prune_vocab [("p", 5), ("q", 2)] 3) "p"
      = vlookup [("p", 5), ("q", 2)] "p" :=
  ⟨by decide, by decide,
   (prune_vocab_spec [("p", 5), ("q", 2)] 3 (by decide)).2.1 "p" (by decide)⟩

/-! ### The vocabulary collector (C2) -/

theorem vcount_addPairs (s : List String) :
    ∀ (v : Vocab) (k : String),
      vcount (addPairs v s) k = vcount v k + sentenceOccPairs s k := by
  induction s with
  | nil => intro v k; simp [addPairs, sentenceOccPairs]
  | cons a tail ih =>
    intro v k
    cases tail with
    | nil => simp [addPairs, sentenceOccPairs]
    | cons b rest =>
      have hdef : addPairs v (a :: b :: rest)
          = addPairs (vincr (vincr v a 1) (compound a b) 1) (b :: rest) := rfl
      rw [hdef, ih, vcount_vincr, vcount_vincr]
      simp only [sentenceOccPairs]
      split_ifs <;> omega

theorem vcount_learnSentence (v : Vocab) (s : List String) (k : String) :
    vcount (learnSentence v s) k = vcount v k + sentenceOcc s k := by
  unfold learnSentence sentenceOcc
  cases hgl : s.getLast? with
  | none => simp [vcount_addPairs, hgl]
  | some w =>
    simp only [hgl, vcount_vincr, vcount_addPairs]
    by_cases h : w = k
    · subst h
      simp
      omega
    · have hk : ¬ (some w = some k) := by simpa using h
      simp [h, hk]

theorem learnSentence_nil (v : Vocab) : learnSentence v [] = v := rfl

theorem learnStepT_proj (maxV : Int) (k : String) (st : Vocab × Nat × Bool)
    (s : List String) :
    ((learnStepT maxV k st s).1, (learnStepT maxV k st s).2.1)
      = learnStep maxV (st.1, st.2.1) s := by
  unfold learnStepT learnStep
  dsimp only
  split <;> rfl

theorem foldl_track_proj (maxV : Int) (k : String) :
    ∀ (ss : List (List String)) (st : Vocab × Nat × Bool),
      ((ss.foldl (learnStepT maxV k) st).1,
       (ss.foldl (learnStepT maxV k) st).2.1)
        = ss.foldl (learnStep maxV) (st.1, st.2.1) := by
  intro ss
  induction ss with
  | nil => intro st; rfl
  | cons s rest ih =>
    intro st
    simp only [List.foldl_cons]
    rw [ih, learnStepT_proj]

theorem track_flag_mono (maxV : Int) (k : String) :
    ∀ (ss : List (List String)) (st : Vocab × Nat × Bool),
      st.2.2 = true → (ss.foldl (learnStepT maxV k) st).2.2 = true := by
  intro ss
  induction ss with
  | nil => intro st h; exact h
  | cons s rest ih =>
    intro st h
    simp only [List.foldl_cons]
    apply ih
    unfold learnStepT
    dsimp only
    split
    · simp [h]
    · exact h

theorem learnStepT_count (maxV : Int) (k : String) (st : Vocab × Nat × Bool)
    (s : List String) (h : (learnStepT maxV k st s).2.2 = false) :
    vcount (learnStepT maxV k st s).1 k = vcount st.1 k + sentenceOcc s k := by
  unfold learnStepT at h ⊢
  dsimp only at h ⊢
  by_cases hc : maxV < ((learnSentence st.1 s).length : Int)
  · simp only [if_pos hc] at h ⊢
    have hv := vcount_learnSentence st.1 s k
    rw [Bool.or_eq_false_iff] at h
    rcases Bool.and_eq_false_iff.mp h.2 with hm | hle
    · have hnone : vlookup (learnSentence st.1 s) k = none := by
        cases hl : vlookup (learnSentence st.1 s) k with
        | none => rfl
        | some c => rw [vmem, hl] at hm; simp at hm
      have h0 : vcount (learnSentence st.1 s) k = 0 := by simp [vcount, hnone]
      have hpr := vlookup_prune_none (learnSentence st.1 s) st.2.1 k hnone
      have hv0 : vcount st.1 k + sentenceOcc s k = 0 := by omega
      simp only [vcount] at hv0
      simp only [vcount, hpr, Option.getD_none]
      omega
    · have hgt : st.2.1 < vcount (learnSentence st.1 s) k :=
        Nat.not_le.mp (of_decide_eq_false hle)
      have hpr := vlookup_prune_gt (learnSentence st.1 s) st.2.1 k hgt
      simp only [vcount, hpr]
      simpa [vcount] using hv
  · simp only [if_neg hc]
    exact vcount_learnSentence st.1 s k

theorem track_exact_general (maxV : Int) (k : String) :
    ∀ (ss : List (List String)) (st : Vocab × Nat × Bool),
      (ss.foldl (learnStepT maxV k) st).2.2 = false →
      vcount (ss.foldl (learnStepT maxV k) st).1 k
        = vcount st.1 k + exactCount ss k := by
  intro ss
  induction ss with
  | nil => intro st h; simp [exactCount]
  | cons s rest ih =>
    intro st hfin
    simp only [List.foldl_cons] at hfin ⊢
    have hstep : (learnStepT maxV k st s).2.2 = false := by
      cases hb : (learnStepT maxV k st s).2.2 with
      | false => rfl
      | true =>
        rw [track_flag_mono maxV k rest _ hb] at hfin
        exact absurd hfin (by simp)
    rw [ih _ hfin, learnStepT_count maxV k st s hstep]
    simp [exactCount]
    omega

/-- C2: per sentence, each adjacent pair `(a, b)` increments `count(a)` and
`count(a_b)` by 1 and the last token gets one extra increment
(`sentenceOcc` spells out exactly these increments); an empty sentence
contributes nothing; the corpus `[[a, b, c]]` yields exactly the counts
`{a:1, b:1, c:1, a_b:1, b_c:1}`; the instrumented collector agrees with
`learn_vocab`, and any key it never prunes ends with its exact number of
occurrences. -/
theorem learn_vocab_spec :
    (∀ (v : Vocab) (s : List String) (k : String),
        vcount (learnSentence v s) k = vcount v k + sentenceOcc s k) ∧
    (∀ v : Vocab, learnSentence v [] = v) ∧
    (vcount (learn_vocab [["a", "b", "c"]] 1000).2 "a" = 1 ∧
     vcount (learn_vocab [["a", "b", "c"]] 1000).2 "b" = 1 ∧
     vcount (learn_vocab [["a", "b", "c"]] 1000).2 "c" = 1 ∧
     vcount (learn_vocab [["a", "b", "c"]] 1000).2 "a_b" = 1 ∧
     vcount (learn_vocab [["a", "b", "c"]] 1000).2 "b_c" = 1 ∧
     (learn_vocab [["a", "b", "c"]] 1000).2.length = 5) ∧
    (∀ (ss : List (List String)) (maxV : Int) (k : String),
        (learn_vocab_track ss maxV k).1 = (learn_vocab ss maxV).2 ∧
        (learn_vocab_track ss maxV k).2.1 = (learn_vocab ss maxV).1) ∧
    (∀ (ss : List (List String)) (maxV : Int) (k : String),
        (learn_vocab_track ss maxV k).2.2 = false →
        vcount (learn_vocab ss maxV).2 k = exactCount ss k) := by
  refine ⟨fun v s k => vcount_learnSentence v s k, fun v => rfl, by decide,
    fun ss maxV k => ?_, fun ss maxV k h => ?_⟩
  · have := foldl_track_proj maxV k ss ([], 1, false)
    unfold learn_vocab_track learn_vocab
    constructor
    · exact congrArg Prod.fst this
    · exact congrArg Prod.snd this
  · have hagree := foldl_track_proj maxV k ss ([], 1, false)
    have hex := track_exact_general maxV k ss ([], 1, false) h
    have h1 : (learn_vocab_track ss maxV k).1
        = (ss.foldl (learnStep maxV) ([], 1)).1 := congrArg Prod.fst hagree
    have h2 : (learn_vocab ss maxV).2 = (ss.foldl (learnStep maxV) ([], 1)).1 := rfl
    unfold learn_vocab_track at h1 hex
    rw [h2, ← h1, hex]
    simp [vcount, vlookup]

/-- C2 witness: on the corpus `[[p, q]]` with a large cap, the key `p` is
never pruned and its final count is its exact occurrence count. -/
theorem learn_vocab_spec_witness :
    (learn_vocab_track [["p", "q"]] 100 "p").2.2 = false ∧
    vcount (learn_vocab [["p", "q"]] 100).2 "p" = exactCount [["p", "q"]] "p" :=
  ⟨by decide, learn_vocab_spec.2.2.2.2 [["p", "q"]] 100 "p" (by decide)⟩

/-! ### Key uniqueness through the collector (for the merge of C6) -/

theorem vkeys_addPairs_nodup (s : List String) :
    ∀ v : Vocab, (vkeys v).Nodup → (vkeys (addPairs v s)).Nodup := by
  induction s with
  | nil => intro v h; exact h
  | cons a tail ih =>
    intro v h
    cases tail with
    | nil => exact h
    | cons b rest =>
      have hdef : addPairs v (a :: b :: rest)
          = addPairs (vincr (vincr v a 1) (compound a b) 1) (b :: rest) := rfl
      rw [hdef]
      exact ih _ (vkeys_vincr_nodup _ _ _ (vkeys_vincr_nodup _ _ _ h))

theorem vkeys_learnSentence_nodup (v : Vocab) (s : List String)
    (h : (vkeys v).Nodup) : (vkeys (learnSentence v s)).Nodup := by
  unfold learnSentence
  cases hgl : s.getLast? with
  | none => simpa using vkeys_addPairs_nodup s v h
  | some w =>
    simpa using vkeys_vincr_nodup _ w 1 (vkeys_addPairs_nodup s v h)

theorem vkeys_learnStep_nodup (maxV : Int) (st : Vocab × Nat)
    (s : List String) (h : (vkeys st.1).Nodup) :
    (vkeys (learnStep maxV st s).1).Nodup := by
  unfold learnStep
  dsimp only
  split
  · exact vkeys_prune_nodup _ _ (vkeys_learnSentence_nodup st.1 s h)
  · exact vkeys_learnSentence_nodup st.1 s h

theorem learn_vocab_nodup (ss : List (List String)) (maxV : Int) :
    (vkeys (learn_vocab ss maxV).2).Nodup := by
  have hgen : ∀ (l : List (List String)) (st : Vocab × Nat),
      (vkeys st.1).Nodup → (vkeys (l.foldl (learnStep maxV) st).1).Nodup := by
    intro l
    induction l with
    | nil => intro st h; exact h
    | cons s rest ih =>
      intro st h
      simp only [List.foldl_cons]
      exact ih _ (vkeys_learnStep_nodup maxV st s h)
  exact hgen ss ([], 1) (by simp [vkeys])

/-! ### The merge operation (C6, C7) -/

theorem vcount_vaddAll (lv : Vocab) :
    ∀ (v : Vocab) (k : String), (vkeys lv).Nodup →
      vcount (vaddAll v lv) k = vcount v k + vcount lv k := by
  induction lv with
  | nil => intro v k _; simp [vaddAll, vcount, vlookup]
  | cons p rest ih =>
    intro v k hnd
    obtain ⟨w, c⟩ := p
    rw [vkeys_cons] at hnd
    have hnd' := List.nodup_cons.mp hnd
    have hdef : vaddAll v ((w, c) :: rest) = vaddAll (vincr v w c) rest := rfl
    rw [hdef, ih _ k hnd'.2, vcount_vincr]
    by_cases h : w = k
    · subst h
      have : vlookup rest w = none := (vlookup_eq_none_iff rest w).mpr hnd'.1
      simp [vcount, vlookup, this]
    · have hk : ¬ w = k := h
      simp [vcount, vlookup, hk]

/-- C6: `add_vocab` first raises `min_reduce` to
`max(self.min_reduce, local min_reduce)`, folds the freshly collected
table into the cumulative one by key-wise summation, and then — exactly
when the merged table exceeds `max_vocab_size` — prunes the cumulative
table at the raised threshold and increments it by 1. -/
theorem add_vocab_spec (m : Phrases) (ss : List (List String)) :
    (∀ k, vcount (vaddAll m.vocab (learn_vocab ss m.max_vocab_size).2) k
        = vcount m.vocab k + vcount (learn_vocab ss m.max_vocab_size).2 k) ∧
    add_vocab m ss =
      (if m.max_vocab_size
          < ((vaddAll m.vocab (learn_vocab ss m.max_vocab_size).2).length : Int)
       then { m with
              vocab :=
                prune_vocab (vaddAll m.vocab (learn_vocab ss m.max_vocab_size).2)
                  (max m.min_reduce (learn_vocab ss m.max_vocab_size).1),
              min_reduce :=
                max m.min_reduce (learn_vocab ss m.max_vocab_size).1 + 1 }
       else { m with
              vocab := vaddAll m.vocab (learn_vocab ss m.max_vocab_size).2,
              min_reduce :=
                max m.min_reduce (learn_vocab ss m.max_vocab_size).1 }) :=
  ⟨fun k => vcount_vaddAll _ m.vocab k (learn_vocab_nodup ss m.max_vocab_size),
   rfl⟩

theorem add_vocab_min_reduce_le (m : Phrases) (ss : List (List String)) :
    m.min_reduce ≤ (add_vocab m ss).min_reduce := by
  unfold add_vocab
  dsimp only
  split
  · exact le_trans (le_max_left _ _) (Nat.le_succ _)
  · exact le_max_left _ _

/-- C7: a model built by the constructor has `min_reduce = 1`, and
`min_reduce` never decreases across any sequence of `add_vocab` calls. -/
theorem min_reduce_monotone :
    (∀ (mc : Int) (th : ℚ) (mv : Int) (m : Phrases),
        Phrases.mk? mc th mv = Except.ok m → m.min_reduce = 1) ∧
    (∀ (m : Phrases) (css : List (List (List String))),
        m.min_reduce ≤ (css.foldl add_vocab m).min_reduce) := by
  constructor
  · intro mc th mv m h
    unfold Phrases.mk? at h
    split_ifs at h
    simp only [Except.ok.injEq] at h
    rw [← h]
  · intro m css
    induction css generalizing m with
    | nil => exact le_refl _
    | cons cs rest ih =>
      simp only [List.foldl_cons]
      exact le_trans (add_vocab_min_reduce_le m cs) (ih (add_vocab m cs))

/-- C7 witness: the constructor at a legal configuration yields
`min_reduce = 1`, and one concrete `add_vocab` call does not lower it. -/
theorem min_reduce_monotone_witness :
    Phrases.mk? 2 3 50 = Except.ok ⟨2, 3, 50, [], 1⟩ ∧
    (⟨2, 3, 50, [], 1⟩ : Phrases).min_reduce = 1 :=
  ⟨rfl, min_reduce_monotone.1 2 3 50 ⟨2, 3, 50, [], 1⟩ rfl⟩

/-! ### Constructor validation (C9) -/

/-- C9 (amended): the constructor raises a configuration error exactly when
`min_count ≤ 0` or `threshold ≤ 0`, and otherwise returns the complete
model; `max_vocab_size` is not validated. -/
theorem init_validation :
    (∀ (mc : Int) (th : ℚ) (mv : Int),
        (∃ e, Phrases.mk? mc th mv = Except.error e) ↔ (mc ≤ 0 ∨ th ≤ 0)) ∧
    (∀ (mc : Int) (th : ℚ) (mv : Int), 0 < mc → 0 < th →
        Phrases.mk? mc th mv = Except.ok ⟨mc, th, mv, [], 1⟩) := by
  constructor
  · intro mc th mv
    unfold Phrases.mk?
    constructor
    · intro ⟨e, he⟩
      split_ifs at he with h1 h2
      · exact Or.inl h1
      · exact Or.inr h2
    · intro h
      by_cases h1 : mc ≤ 0
      · exact ⟨"min_count should be at least 1", by simp [h1]⟩
      · have h2 : th ≤ 0 := h.resolve_left h1
        exact ⟨"threshold should be positive", by simp [h1, h2]⟩
  · intro mc th mv h1 h2
    unfold Phrases.mk?
    rw [if_neg (not_le.mpr h1), if_neg (not_le.mpr h2)]

/-- C9 counterexample: a strictly negative `max_vocab_size` is accepted by
the constructor — `max_vocab_size` is not among the validated parameters. -/
theorem init_validation_cex :
    Phrases.mk? 5 100 (-3) = Except.ok ⟨5, 100, -3, [], 1⟩ ∧
    (-3 : Int) ≤ 0 :=
  ⟨rfl, by decide⟩

/-- C9 witness: a legal configuration constructs the full model. -/
theorem init_validation_witness :
    (0 : Int) < 3 ∧ (0 : ℚ) < 7 ∧
    Phrases.mk? 3 7 50 = Except.ok ⟨3, 7, 50, [], 1⟩ :=
  ⟨by decide, by norm_num, init_validation.2 3 7 50 (by decide) (by norm_num)⟩

/-! ### The single-sentence transform: step lemmas -/

theorem phrasesGo_nil (m : Phrases) (lastB : Bool) :
    phrasesGo m [] lastB = [] := rfl

theorem phrasesGo_single_mem (m : Phrases) (a : String)
    (hv : vmem m.vocab a = true) : phrasesGo m [a] false = [a] := by
  simp [phrasesGo, hv]

theorem phrasesGo_single_not (m : Phrases) (a : String)
    (hv : vmem m.vocab a = false) : phrasesGo m [a] false = [] := by
  simp [phrasesGo, hv]

theorem phrasesGo_single_true (m : Phrases) (a : String) :
    phrasesGo m [a] true = [] := by
  simp [phrasesGo]

theorem phrasesGo_cons_cons_pos (m : Phrases) (a b : String)
    (rest : List String)
    (hp : bigramOk m a b = true ∧ m.threshold < score m a b) :
    phrasesGo m (a :: b :: rest) false
      = compound a b :: phrasesGo m (b :: rest) true := by
  simp [phrasesGo, hp.1, hp.2]

theorem phrasesGo_cons_cons_neg (m : Phrases) (a b : String)
    (rest : List String)
    (hp : ¬ (bigramOk m a b = true ∧ m.threshold < score m a b)) :
    phrasesGo m (a :: b :: rest) false
      = a :: phrasesGo m (b :: rest) false := by
  simp only [phrasesGo]
  rw [if_neg (by simpa using hp)]
  simp

theorem phrasesGo_cons_cons_true (m : Phrases) (a b : String)
    (rest : List String) :
    phrasesGo m (a :: b :: rest) true = phrasesGo m (b :: rest) false := by
  simp [phrasesGo]

theorem phrasesGoA_nil (m : Phrases) (i : Nat) (lastB : Bool) :
    phrasesGoA m i [] lastB = [] := rfl

theorem phrasesGoA_single_mem (m : Phrases) (i : Nat) (a : String)
    (hv : vmem m.vocab a = true) :
    phrasesGoA m i [a] false = [POut.single i a] := by
  simp [phrasesGoA, hv]

theorem phrasesGoA_single_not (m : Phrases) (i : Nat) (a : String)
    (hv : vmem m.vocab a = false) : phrasesGoA m i [a] false = [] := by
  simp [phrasesGoA, hv]

theorem phrasesGoA_single_true (m : Phrases) (i : Nat) (a : String) :
    phrasesGoA m i [a] true = [] := by
  simp [phrasesGoA]

theorem phrasesGoA_cons_cons_pos (m : Phrases) (i : Nat) (a b : String)
    (rest : List String)
    (hp : bigramOk m a b = true ∧ m.threshold < score m a b) :
    phrasesGoA m i (a :: b :: rest) false
      = POut.merged i a b :: phrasesGoA m (i + 1) (b :: rest) true := by
  simp [phrasesGoA, hp.1, hp.2]

theorem phrasesGoA_cons_cons_neg (m : Phrases) (i : Nat) (a b : String)
    (rest : List String)
    (hp : ¬ (bigramOk m a b = true ∧ m.threshold < score m a b)) :
    phrasesGoA m i (a :: b :: rest) false
      = POut.single i a :: phrasesGoA m (i + 1) (b :: rest) false := by
  simp only [phrasesGoA]
  rw [if_neg (by simpa using hp)]
  simp

theorem phrasesGoA_cons_cons_true (m : Phrases) (i : Nat) (a b : String)
    (rest : List String) :
    phrasesGoA m i (a :: b :: rest) true
      = phrasesGoA m (i + 1) (b :: rest) false := by
  simp [phrasesGoA]

/-! ### The single-sentence transform: structural lemmas -/

theorem phrasesGoA_render (m : Phrases) :
    ∀ (l : List String) (i : Nat) (lastB : Bool),
      (phrasesGoA m i l lastB).map POut.render = phrasesGo m l lastB := by
  intro l
  induction l with
  | nil => intro i lastB; rfl
  | cons a tail ih =>
    intro i lastB
    cases tail with
    | nil =>
      cases lastB with
      | true => rw [phrasesGoA_single_true, phrasesGo_single_true]; rfl
      | false =>
        cases hv : vmem m.vocab a with
        | true =>
          rw [phrasesGoA_single_mem m i a hv, phrasesGo_single_mem m a hv]
          simp [POut.render]
        | false =>
          rw [phrasesGoA_single_not m i a hv, phrasesGo_single_not m a hv]
          rfl
    | cons b rest =>
      cases lastB with
      | true =>
        rw [phrasesGoA_cons_cons_true, phrasesGo_cons_cons_true]
        exact ih (i + 1) false
      | false =>
        by_cases hp : (bigramOk m a b = true ∧ m.threshold < score m a b)
        · rw [phrasesGoA_cons_cons_pos m i a b rest hp,
            phrasesGo_cons_cons_pos m a b rest hp]
          simp [POut.render, ih (i + 1) true]
        · rw [phrasesGoA_cons_cons_neg m i a b rest hp,
            phrasesGo_cons_cons_neg m a b rest hp]
          simp [POut.render, ih (i + 1) false]

theorem phrasesGo_length (m : Phrases) :
    ∀ (l : List String) (lastB : Bool),
      (phrasesGo m l lastB).length ≤ l.length := by
  intro l
  induction l with
  | nil => intro lastB; simp [phrasesGo_nil]
  | cons a tail ih =>
    intro lastB
    cases tail with
    | nil =>
      cases lastB with
      | true => rw [phrasesGo_single_true]; simp
      | false =>
        cases hv : vmem m.vocab a with
        | true => rw [phrasesGo_single_mem m a hv]
        | false => rw [phrasesGo_single_not m a hv]; simp
    | cons b rest =>
      cases lastB with
      | true =>
        rw [phrasesGo_cons_cons_true]
        have := ih false
        simp only [List.length_cons] at this ⊢
        omega
      | false =>
        by_cases hp : (bigramOk m a b = true ∧ m.threshold < score m a b)
        · rw [phrasesGo_cons_cons_pos m a b rest hp]
          have := ih true
          simp only [List.length_cons] at this ⊢
          omega
        · rw [phrasesGo_cons_cons_neg m a b rest hp]
          have := ih false
          simp only [List.length_cons] at this ⊢
          omega

theorem spacedFrom_nil (n : Nat) : spacedFrom n [] := trivial

theorem spacedFrom_cons (n : Nat) (x : POut) (xs : List POut) :
    spacedFrom n (x :: xs) ↔ n ≤ x.startIdx ∧ spacedFrom (x.endIdx + 1) xs :=
  Iff.rfl

theorem spacedFrom_mono (l : List POut) (n n' : Nat) (h : n' ≤ n)
    (hs : spacedFrom n l) : spacedFrom n' l := by
  cases l with
  | nil => trivial
  | cons x xs =>
    rw [spacedFrom_cons] at hs ⊢
    exact ⟨le_trans h hs.1, hs.2⟩

theorem phrasesGoA_spaced (m : Phrases) :
    ∀ (l : List String) (i : Nat),
      spacedFrom i (phrasesGoA m i l false) ∧
      spacedFrom (i + 1) (phrasesGoA m i l true) := by
  intro l
  induction l with
  | nil => intro i; exact ⟨trivial, trivial⟩
  | cons a tail ih =>
    intro i
    cases tail with
    | nil =>
      constructor
      · cases hv : vmem m.vocab a with
        | true =>
          rw [phrasesGoA_single_mem m i a hv, spacedFrom_cons]
          exact ⟨le_refl _, trivial⟩
        | false => rw [phrasesGoA_single_not m i a hv]; trivial
      · rw [phrasesGoA_single_true]; trivial
    | cons b rest =>
      constructor
      · by_cases hp : (bigramOk m a b = true ∧ m.threshold < score m a b)
        · rw [phrasesGoA_cons_cons_pos m i a b rest hp, spacedFrom_cons]
          exact ⟨le_refl _, (ih (i + 1)).2⟩
        · rw [phrasesGoA_cons_cons_neg m i a b rest hp, spacedFrom_cons]
          exact ⟨le_refl _, (ih (i + 1)).1⟩
      · rw [phrasesGoA_cons_cons_true]
        exact (ih (i + 1)).1

theorem spacedFrom_adjacent :
    ∀ (l : List POut) (n : Nat), spacedFrom n l →
      ∀ (j : Nat) (x y : POut), l.get? j = some x → l.get? (j + 1) = some y →
        x.endIdx < y.startIdx := by
  intro l
  induction l with
  | nil => intro n _ j x y hx; simp [List.get?] at hx
  | cons z zs ih =>
    intro n hsp j x y hx hy
    rw [spacedFrom_cons] at hsp
    cases j with
    | zero =>
      simp [List.get?] at hx
      subst hx
      cases zs with
      | nil => simp [List.get?] at hy
      | cons w t =>
        simp [List.get?] at hy
        subst hy
        have h2 := (spacedFrom_cons _ _ _).mp hsp.2
        omega
    | succ j' =>
      exact ih (z.endIdx + 1) hsp.2 j' x y
        (by simpa [List.get?] using hx) (by simpa [List.get?] using hy)

theorem expandAll_nil : expandAll [] = [] := rfl

theorem expandAll_cons (x : POut) (l : List POut) :
    expandAll (x :: l) = x.expandTok ++ expandAll l := rfl

theorem phrasesGoA_expand (m : Phrases) :
    ∀ (l : List String) (i : Nat),
      (expandAll (phrasesGoA m i l false) = l ∨
       expandAll (phrasesGoA m i l false) = l.dropLast) ∧
      (expandAll (phrasesGoA m i l true) = l.drop 1 ∨
       expandAll (phrasesGoA m i l true) = (l.drop 1).dropLast) := by
  intro l
  induction l with
  | nil => intro i; exact ⟨Or.inl rfl, Or.inl rfl⟩
  | cons a tail ih =>
    intro i
    cases tail with
    | nil =>
      constructor
      · cases hv : vmem m.vocab a with
        | true =>
          refine Or.inl ?_
          rw [phrasesGoA_single_mem m i a hv, expandAll_cons, expandAll_nil]
          rfl
        | false =>
          refine Or.inr ?_
          rw [phrasesGoA_single_not m i a hv, expandAll_nil]
          rfl
      · refine Or.inl ?_
        rw [phrasesGoA_single_true, expandAll_nil]
        rfl
    | cons b rest =>
      constructor
      · by_cases hp : (bigramOk m a b = true ∧ m.threshold < score m a b)
        · rcases (ih (i + 1)).2 with h | h
          · refine Or.inl ?_
            rw [phrasesGoA_cons_cons_pos m i a b rest hp, expandAll_cons, h]
            simp [POut.expandTok]
          · cases rest with
            | nil =>
              refine Or.inl ?_
              simp only [List.drop_succ_cons, List.drop_zero,
                List.dropLast_single] at h
              rw [phrasesGoA_cons_cons_pos m i a b [] hp, expandAll_cons, h]
              simp [POut.expandTok]
            | cons c t =>
              refine Or.inr ?_
              simp only [List.drop_succ_cons, List.drop_zero] at h
              rw [phrasesGoA_cons_cons_pos m i a b (c :: t) hp, expandAll_cons,
                h, List.dropLast_cons₂, List.dropLast_cons₂]
              simp [POut.expandTok]
        · rcases (ih (i + 1)).1 with h | h
          · refine Or.inl ?_
            rw [phrasesGoA_cons_cons_neg m i a b rest hp, expandAll_cons, h]
            simp [POut.expandTok]
          · refine Or.inr ?_
            rw [phrasesGoA_cons_cons_neg m i a b rest hp, expandAll_cons, h,
              List.dropLast_cons₂]
            simp [POut.expandTok]
      · rcases (ih (i + 1)).1 with h | h
        · refine Or.inl ?_
          rw [phrasesGoA_cons_cons_true, h]
          rfl
        · refine Or.inr ?_
          rw [phrasesGoA_cons_cons_true, h]
          rfl

theorem phrasesGoA_expand_last (m : Phrases) :
    ∀ (l : List String) (w : String), l.getLast? = some w →
      vmem m.vocab w = true →
      ∀ i, expandAll (phrasesGoA m i l false) = l ∧
           expandAll (phrasesGoA m i l true) = l.drop 1 := by
  intro l
  induction l with
  | nil => intro w hgl; simp at hgl
  | cons a tail ih =>
    intro w hgl hv i
    cases tail with
    | nil =>
      simp at hgl
      subst hgl
      constructor
      · rw [phrasesGoA_single_mem m i a hv, expandAll_cons, expandAll_nil]
        rfl
      · rw [phrasesGoA_single_true, expandAll_nil]
        rfl
    | cons b rest =>
      have hgl' : (b :: rest).getLast? = some w := by
        rwa [List.getLast?_cons_cons] at hgl
      have iht := ih w hgl' hv
      constructor
      · by_cases hp : (bigramOk m a b = true ∧ m.threshold < score m a b)
        · rw [phrasesGoA_cons_cons_pos m i a b rest hp, expandAll_cons,
            (iht (i + 1)).2]
          simp [POut.expandTok]
        · rw [phrasesGoA_cons_cons_neg m i a b rest hp, expandAll_cons,
            (iht (i + 1)).1]
          rfl
      · rw [phrasesGoA_cons_cons_true, (iht (i + 1)).1]
        rfl

theorem phrasesGoA_merged_mem (m : Phrases) :
    ∀ (l : List String) (i : Nat) (lastB : Bool) (j : Nat) (a b : String),
      POut.merged j a b ∈ phrasesGoA m i l lastB →
      vmem m.vocab a = true ∧ vmem m.vocab b = true ∧
      vmem m.vocab (compound a b) = true := by
  intro l
  induction l with
  | nil =>
    intro i lastB j a b h
    rw [phrasesGoA_nil] at h
    simp at h
  | cons x tail ih =>
    intro i lastB j a b h
    cases tail with
    | nil =>
      cases lastB with
      | true =>
        rw [phrasesGoA_single_true] at h
        simp at h
      | false =>
        cases hv : vmem m.vocab x with
        | true =>
          rw [phrasesGoA_single_mem m i x hv] at h
          simp at h
        | false =>
          rw [phrasesGoA_single_not m i x hv] at h
          simp at h
    | cons y rest =>
      cases lastB with
      | true =>
        rw [phrasesGoA_cons_cons_true] at h
        exact ih (i + 1) false j a b h
      | false =>
        by_cases hp : (bigramOk m x y = true ∧ m.threshold < score m x y)
        · rw [phrasesGoA_cons_cons_pos m i x y rest hp] at h
          rcases List.mem_cons.mp h with heq | hmem
          · injection heq with h1 h2 h3
            subst h2
            subst h3
            have hb := hp.1
            simp [bigramOk] at hb
            exact ⟨hb.1.1, hb.1.2, hb.2⟩
          · exact ih (i + 1) true j a b hmem
        · rw [phrasesGoA_cons_cons_neg m i x y rest hp] at h
          rcases List.mem_cons.mp h with heq | hmem
          · simp at heq
          · exact ih (i + 1) false j a b hmem

theorem phrasesGoA_expand_last_absent (m : Phrases) :
    ∀ (l : List String) (w : String), l.getLast? = some w →
      vmem m.vocab w = false →
      ∀ i, expandAll (phrasesGoA m i l false) = l.dropLast ∧
           expandAll (phrasesGoA m i l true) = (l.drop 1).dropLast := by
  intro l
  induction l with
  | nil => intro w hgl; simp at hgl
  | cons a tail ih =>
    intro w hgl hv i
    cases tail with
    | nil =>
      simp at hgl
      subst hgl
      constructor
      · rw [phrasesGoA_single_not m i a hv, expandAll_nil]
        rfl
      · rw [phrasesGoA_single_true, expandAll_nil]
        rfl
    | cons b rest =>
      have hgl' : (b :: rest).getLast? = some w := by
        rwa [List.getLast?_cons_cons] at hgl
      have iht := ih w hgl' hv
      constructor
      · by_cases hp : (bigramOk m a b = true ∧ m.threshold < score m a b)
        · cases rest with
          | nil =>
            exfalso
            simp at hgl'
            subst hgl'
            have hb := hp.1
            simp [bigramOk] at hb
            rw [hb.1.2] at hv
            simp at hv
          | cons c t =>
            rw [phrasesGoA_cons_cons_pos m i a b (c :: t) hp, expandAll_cons,
              (iht (i + 1)).2]
            simp [POut.expandTok, List.dropLast_cons₂]
        · rw [phrasesGoA_cons_cons_neg m i a b rest hp, expandAll_cons,
            (iht (i + 1)).1]
          simp [POut.expandTok, List.dropLast_cons₂]
      · rw [phrasesGoA_cons_cons_true, (iht (i + 1)).1]
        rfl

theorem phrasesGo_absent (m : Phrases) :
    ∀ (l : List String), (∀ t ∈ l, vmem m.vocab t = false) →
      phrasesGo m l false = l.dropLast := by
  intro l
  induction l with
  | nil => intro _; rfl
  | cons a tail ih =>
    intro h
    cases tail with
    | nil => rw [phrasesGo_single_not m a (h a (by simp))]; rfl
    | cons b rest =>
      have ha := h a (by simp)
      have hp : ¬ (bigramOk m a b = true ∧ m.threshold < score m a b) := by
        simp [bigramOk, ha]
      have ih' := ih (fun t ht => h t (List.mem_cons_of_mem a ht))
      rw [phrasesGo_cons_cons_neg m a b rest hp, ih', List.dropLast_cons₂]

/-! ### Claim theorems for the transform -/

/-- C1: at a pair whose two tokens and compound key are all present in the
table and whose previous position did not merge, the merge happens exactly
when `(count(a_b) - min_count) / (count(a) * count(b)) * |table|` exceeds
the threshold; on the spec's Example 2 table (a=100, b=100, a_b=90, 1000
keys, min_count=5, threshold=10) the score is 8.5 and no merge occurs. -/
theorem getitem_merge_decision :
    (∀ (m : Phrases) (i : Nat) (a b : String) (rest : List String),
        vmem m.vocab a = true → vmem m.vocab b = true →
        vmem m.vocab (compound a b) = true →
        ((phrasesGoA m i (a :: b :: rest) false
            = POut.merged i a b :: phrasesGoA m (i + 1) (b :: rest) true)
          ↔ m.threshold < score m a b) ∧
        (¬ m.threshold < score m a b →
          phrasesGoA m i (a :: b :: rest) false
            = POut.single i a :: phrasesGoA m (i + 1) (b :: rest) false)) ∧
    c1Model.min_count = 5 ∧ c1Model.threshold = 10 ∧
    c1Vocab.length = 1000 ∧
    vcount c1Vocab "a" = 100 ∧ vcount c1Vocab "b" = 100 ∧
    vcount c1Vocab "a_b" = 90 ∧
    score c1Model "a" "b" = 17 / 2 ∧
    ¬ ((10 : ℚ) < 17 / 2) ∧
    phrasesGetitem c1Model ["a", "b"] = ["a", "b"] := by
  have hlen : c1Vocab.length = 1000 := by simp [c1Vocab]
  have hsc : score c1Model "a" "b" = 17 / 2 := by
    rw [score, show vcount c1Model.vocab (compound "a" "b") = 90 from rfl,
      show vcount c1Model.vocab "a" = 100 from rfl,
      show vcount c1Model.vocab "b" = 100 from rfl,
      show c1Model.min_count = 5 from rfl,
      show c1Model.vocab.length = 1000 from hlen]
    norm_num
  have hng : ¬ c1Model.threshold < score c1Model "a" "b" := by
    rw [hsc, show c1Model.threshold = 10 from rfl]
    norm_num
  have htrans : phrasesGetitem c1Model ["a", "b"] = ["a", "b"] := by
    show phrasesGo c1Model ["a", "b"] false = ["a", "b"]
    rw [phrasesGo_cons_cons_neg c1Model "a" "b" [] (fun hc => hng hc.2),
      phrasesGo_single_mem c1Model "b" rfl]
  refine ⟨?_, rfl, rfl, hlen, rfl, rfl, rfl, hsc, by norm_num, htrans⟩
  intro m i a b rest ha hb hab
  have hbig : bigramOk m a b = true := by simp [bigramOk, ha, hb, hab]
  by_cases hs : m.threshold < score m a b
  · refine ⟨⟨fun _ => hs, fun _ => ?_⟩, fun hns => absurd hs hns⟩
    exact phrasesGoA_cons_cons_pos m i a b rest ⟨hbig, hs⟩
  · constructor
    · constructor
      · intro heq
        rw [phrasesGoA_cons_cons_neg m i a b rest (fun hc => hs hc.2)] at heq
        simp at heq
      · intro hs2
        exact absurd hs2 hs
    · intro _
      exact phrasesGoA_cons_cons_neg m i a b rest (fun hc => hs hc.2)

/-- C1 witness: on a small table the pair ("x", "y") is fully eligible and
the merge-decision equivalence applies to it. -/
theorem getitem_merge_decision_witness :
    vmem c1wModel.vocab "x" = true ∧ vmem c1wModel.vocab "y" = true ∧
    vmem c1wModel.vocab (compound "x" "y") = true ∧
    (phrasesGoA c1wModel 0 ["x", "y"] false
        = POut.merged 0 "x" "y" :: phrasesGoA c1wModel 1 ["y"] true
      ↔ c1wModel.threshold < score c1wModel "x" "y") :=
  ⟨by decide, by decide, by decide,
   (getitem_merge_decision.1 c1wModel 0 "x" "y" []
     (by decide) (by decide) (by decide)).1⟩

/-- C5: consumed source spans of the transform's output are disjoint and
ordered — adjacent output elements never share a source position, so in
particular two adjacent compounds never overlap; on the spec's Example 4
(both "x_y" and "y_z" above threshold) only the leftmost pair merges:
`[x, y, z] ↦ [x_y, z]`. -/
theorem getitem_nonoverlap :
    (∀ (m : Phrases) (s : List String) (j : Nat) (x y : POut),
        (phrasesGoA m 0 s false).get? j = some x →
        (phrasesGoA m 0 s false).get? (j + 1) = some y →
        x.endIdx < y.startIdx) ∧
    c5Model.threshold < score c5Model "x" "y" ∧
    c5Model.threshold < score c5Model "y" "z" ∧
    phrasesGetitem c5Model ["x", "y", "z"] = ["x_y", "z"] := by
  have hs1 : score c5Model "x" "y" = 5 := by
    rw [score, show vcount c5Model.vocab (compound "x" "y") = 2 from rfl,
      show vcount c5Model.vocab "x" = 1 from rfl,
      show vcount c5Model.vocab "y" = 1 from rfl,
      show c5Model.min_count = 1 from rfl,
      show c5Model.vocab.length = 5 from rfl]
    norm_num
  have hs2 : score c5Model "y" "z" = 5 := by
    rw [score, show vcount c5Model.vocab (compound "y" "z") = 2 from rfl,
      show vcount c5Model.vocab "y" = 1 from rfl,
      show vcount c5Model.vocab "z" = 1 from rfl,
      show c5Model.min_count = 1 from rfl,
      show c5Model.vocab.length = 5 from rfl]
    norm_num
  have hlt1 : c5Model.threshold < score c5Model "x" "y" := by
    rw [hs1, show c5Model.threshold = 1 from rfl]
    norm_num
  have hlt2 : c5Model.threshold < score c5Model "y" "z" := by
    rw [hs2, show c5Model.threshold = 1 from rfl]
    norm_num
  have htrans : phrasesGetitem c5Model ["x", "y", "z"] = ["x_y", "z"] := by
    show phrasesGo c5Model ["x", "y", "z"] false = ["x_y", "z"]
    rw [phrasesGo_cons_cons_pos c5Model "x" "y" ["z"] ⟨rfl, hlt1⟩,
      phrasesGo_cons_cons_true, phrasesGo_single_mem c5Model "z" rfl]
    rfl
  refine ⟨?_, hlt1, hlt2, htrans⟩
  intro m s j x y hx hy
  exact spacedFrom_adjacent _ 0 (phrasesGoA_spaced m s 0).1 j x y hx hy

/-- C5 witness: on Example 4 the two adjacent output elements are the
compound at positions 0-1 and the single at position 2, with disjoint
spans. -/
theorem getitem_nonoverlap_witness :
    (phrasesGoA c5Model 0 ["x", "y", "z"] false).get? 0
      = some (POut.merged 0 "x" "y") ∧
    (phrasesGoA c5Model 0 ["x", "y", "z"] false).get? 1
      = some (POut.single 2 "z") ∧
    (POut.merged 0 "x" "y").endIdx < (POut.single 2 "z").startIdx := by
  have hs1 : score c5Model "x" "y" = 5 := by
    rw [score, show vcount c5Model.vocab (compound "x" "y") = 2 from rfl,
      show vcount c5Model.vocab "x" = 1 from rfl,
      show vcount c5Model.vocab "y" = 1 from rfl,
      show c5Model.min_count = 1 from rfl,
      show c5Model.vocab.length = 5 from rfl]
    norm_num
  have hlt1 : c5Model.threshold < score c5Model "x" "y" := by
    rw [hs1, show c5Model.threshold = 1 from rfl]
    norm_num
  have hgoA : phrasesGoA c5Model 0 ["x", "y", "z"] false
      = [POut.merged 0 "x" "y", POut.single 2 "z"] := by
    rw [phrasesGoA_cons_cons_pos c5Model 0 "x" "y" ["z"] ⟨rfl, hlt1⟩,
      phrasesGoA_cons_cons_true, phrasesGoA_single_mem c5Model (0 + 1 + 1) "z" rfl]
  refine ⟨by rw [hgoA]; rfl, by rw [hgoA]; rfl, ?_⟩
  exact getitem_nonoverlap.1 c5Model ["x", "y", "z"] 0
    (POut.merged 0 "x" "y") (POut.single 2 "z") (by rw [hgoA]; rfl)
    (by rw [hgoA]; rfl)

/-- C3 (amended): the output is never longer than the input; it renders the
annotated output; expanding each emitted element back to its source tokens
reconstructs the input in order, at worst minus the final token (so no
token is duplicated and no non-final token is dropped); every merged
element consumes only tokens present in the table — tokens absent from the
table are therefore passed through unmerged wherever they are emitted;
when the final token is in the table the reconstruction is exact, and when
it is absent it is silently dropped (it can never be consumed by a merge). -/
theorem getitem_subsequence (m : Phrases) (s : List String) :
    (phrasesGetitem m s).length ≤ s.length ∧
    phrasesGetitem m s = (phrasesGoA m 0 s false).map POut.render ∧
    (expandAll (phrasesGoA m 0 s false) = s ∨
     expandAll (phrasesGoA m 0 s false) = s.dropLast) ∧
    (∀ j a b, POut.merged j a b ∈ phrasesGoA m 0 s false →
        vmem m.vocab a = true ∧ vmem m.vocab b = true ∧
        vmem m.vocab (compound a b) = true) ∧
    (∀ w, s.getLast? = some w → vmem m.vocab w = true →
        expandAll (phrasesGoA m 0 s false) = s) ∧
    (∀ w, s.getLast? = some w → vmem m.vocab w = false →
        expandAll (phrasesGoA m 0 s false) = s.dropLast) :=
  ⟨phrasesGo_length m s false,
   (phrasesGoA_render m s 0 false).symm,
   (phrasesGoA_expand m s 0).1,
   fun j a b h => phrasesGoA_merged_mem m s 0 false j a b h,
   fun w hgl hv => (phrasesGoA_expand_last m s w hgl hv 0).1,
   fun w hgl hv => (phrasesGoA_expand_last_absent m s w hgl hv 0).1⟩

/-- C3 counterexample: with only "a" in the table, the sentence
`["a", "b"]` transforms to `["a"]` — the final token "b" is consumed by no
merge (the annotated output is a lone single) yet it is dropped, refuting
"every token not consumed by a merge is emitted". -/
theorem getitem_subsequence_cex :
    phrasesGetitem c3Model ["a", "b"] = ["a"] ∧
    phrasesGoA c3Model 0 ["a", "b"] false = [POut.single 0 "a"] ∧
    "b" ∉ phrasesGetitem c3Model ["a", "b"] := by decide

/-- C3 witness: when the final token is present in the table the
reconstruction is exact, and when it is absent exactly the final token is
dropped. -/
theorem getitem_subsequence_witness :
    (["u", "v"].getLast? = some "v") ∧ vmem c3wModel.vocab "v" = true ∧
    expandAll (phrasesGoA c3wModel 0 ["u", "v"] false) = ["u", "v"] ∧
    (["v", "u"].getLast? = some "u") ∧ vmem c3wModel.vocab "u" = false ∧
    expandAll (phrasesGoA c3wModel 0 ["v", "u"] false) = ["v", "u"].dropLast :=
  ⟨by decide, by decide,
   (getitem_subsequence c3wModel ["u", "v"]).2.2.2.2.1 "v" (by decide) (by decide),
   by decide, by decide,
   (getitem_subsequence c3wModel ["v", "u"]).2.2.2.2.2 "u" (by decide) (by decide)⟩

/-- C4 (amended): a sentence none of whose tokens occurs in the table is
returned with its final token removed (so only the empty sentence is
returned unchanged), not unchanged as claimed. -/
theorem getitem_no_table_tokens (m : Phrases) (s : List String)
    (h : ∀ t ∈ s, vmem m.vocab t = false) :
    phrasesGetitem m s = s.dropLast :=
  phrasesGo_absent m s h

/-- C4 counterexample: over the empty table, the one-token sentence
`["a"]` (none of whose tokens is in the table) transforms to `[]`, not to
itself. -/
theorem getitem_no_table_tokens_cex :
    vmem c4Model.vocab "a" = false ∧
    phrasesGetitem c4Model ["a"] = [] ∧
    ¬ phrasesGetitem c4Model ["a"] = ["a"] := by decide

/-- C4 witness: a concrete table-free sentence loses exactly its final
token. -/
theorem getitem_no_table_tokens_witness :
    phrasesGetitem c4Model ["p", "q"] = ["p", "q"].dropLast :=
  getitem_no_table_tokens c4Model ["p", "q"] (by decide)

/-- C10: a non-final token not consumed by a merge is emitted whether or
not it is in the table; the final token is emitted only when it is in the
table; a one-token sentence whose token is absent transforms to `[]`. -/
theorem getitem_last_token :
    (∀ (m : Phrases) (a b : String) (rest : List String),
        ¬ (bigramOk m a b = true ∧ m.threshold < score m a b) →
        phrasesGo m (a :: b :: rest) false = a :: phrasesGo m (b :: rest) false) ∧
    (∀ (m : Phrases) (t : String),
        phrasesGo m [t] false = if vmem m.vocab t = true then [t] else []) ∧
    (∀ (m : Phrases) (t : String), vmem m.vocab t = false →
        phrasesGetitem m [t] = []) := by
  refine ⟨?_, ?_, ?_⟩
  · intro m a b rest hp
    exact phrasesGo_cons_cons_neg m a b rest hp
  · intro m t
    cases hv : vmem m.vocab t with
    | true =>
      rw [phrasesGo_single_mem m t hv]
      simp
    | false =>
      rw [phrasesGo_single_not m t hv]
      simp
  · intro m t hv
    exact phrasesGo_single_not m t hv

/-- C10 witness: "q" is absent from the table, so the one-token sentence
`["q"]` transforms to the empty output. -/
theorem getitem_last_token_witness :
    vmem c10Model.vocab "q" = false ∧ phrasesGetitem c10Model ["q"] = [] :=
  ⟨by decide, getitem_last_token.2.2 c10Model "q" (by decide)⟩

end Gensim
